import Mathlib

/-!
Verification of `CDtire/extract_element_sets.py`.

The script reads a mesh-definition file as a list of text lines, classifies
directive lines (`*elset`, `*surface,`, lines containing `embed`), collects
element-set names, surface names, surface blocks and embed blocks, writes a
three-section output file, and finally applies a whole-word substitution
S1→S3, S2→S4, S3→S5, S4→S6 over the assembled output text.

Lines and texts are modelled as `List Char`.  Python string operations
(`strip`, `lstrip`, `lower`, `split`, `startswith`, the two regular
expressions) are translated one by one below.  The Python whitespace and
word-character classes are modelled by their ASCII parts, which cover every
character that can occur in the fixed patterns and in the directive syntax.
-/

namespace ExtractElementSets

set_option maxRecDepth 10000

/-- ASCII whitespace as recognised by Python `str.strip` / regex `\s`. -/
def pyIsSpace (c : Char) : Bool :=
  c == ' ' || c == '\t' || c == '\n' || c == '\r' || c == '\x0b' || c == '\x0c'

/-- Python `str.lstrip()`. -/
def pyLstrip (l : List Char) : List Char := l.dropWhile pyIsSpace

/-- Python `str.strip()`: drop whitespace on both ends. -/
def pyStrip (l : List Char) : List Char :=
  ((l.dropWhile pyIsSpace).reverse.dropWhile pyIsSpace).reverse

/-- Python `str.lower()` (ASCII case folding). -/
def pyLower (l : List Char) : List Char := l.map Char.toLower

/-- Python `needle in hay` substring test. -/
def strContains (needle : List Char) : List Char → Bool
  | [] => needle.isEmpty
  | hay@(_ :: rest) => needle.isPrefixOf hay || strContains needle rest

/-- Test used by the block-consuming inner loops:
`lines[j].lstrip().startswith('*')`. -/
def lstripStartsStar (l : List Char) : Bool :=
  match pyLstrip l with
  | '*' :: _ => true
  | _ => false

/-- Classification of a line by the `if/elif` chain of `parse_inp`
(lines 36, 42, 55 of the source), applied to `line = lines[i].strip()`
through `low = line.lower()`. -/
inductive LineClass where
  | elset | surface | embedded | other
deriving DecidableEq

/-- The `if/elif` chain of `parse_inp`: `low.startswith('*elset')`,
then `low.startswith('*surface,')`, then `'embed' in low`. -/
def classify (l : List Char) : LineClass :=
  let low := pyLower (pyStrip l)
  if ("*elset".toList).isPrefixOf low then .elset
  else if ("*surface,".toList).isPrefixOf low then .surface
  else if strContains ("embed".toList) low then .embedded
  else .other

/-!
The ELSET attribute pattern: `re.search(r'elset\s*=\s*([^,]+)', line, re.I)`.

`re.search` tries every start position from the left; at a given position the
pattern requires the five letters `elset` (case-insensitively), then optional
whitespace, then `=`.  Because `=` is not a whitespace character the greedy
`\s*` before it never backtracks.  The second `\s*` can backtrack: if after
consuming all whitespace the next character is `,` or the end of the line,
the engine gives back one whitespace character so that `[^,]+` can match it.
-/

/-- Capture of `\s*([^,]+)` after the `=` sign, with the single backtracking
step described above. -/
def captureVal (rest : List Char) : Option (List Char) :=
  let w := rest.takeWhile pyIsSpace
  let r := rest.dropWhile pyIsSpace
  let cap := r.takeWhile (fun c => !(c == ','))
  if cap.isEmpty then
    match w.getLast? with
    | some c => some [c]
    | none => none
  else some cap

/-- Attempt to match `elset\s*=\s*([^,]+)` (case-insensitively) at the head
of `cs`. -/
def matchElsetAt (cs : List Char) : Option (List Char) :=
  if pyLower (cs.take 5) = "elset".toList then
    match (cs.drop 5).dropWhile pyIsSpace with
    | '=' :: rest => captureVal rest
    | _ => none
  else none

/-- Leftmost search for the ELSET attribute pattern, as `re.search`. -/
def elsetSearch : List Char → Option (List Char)
  | [] => none
  | cs@(_ :: rest) =>
    match matchElsetAt cs with
    | some cap => some cap
    | none => elsetSearch rest

/-- Name contributed by a surface data line: `parts = lines[j].split(',')`,
then `parts[0].strip()` if non-empty.  The first field of `split(',')` is the
run of characters before the first comma. -/
def dataName (l : List Char) : Option (List Char) :=
  let f := pyStrip (l.takeWhile (fun c => !(c == ',')))
  if f.isEmpty then none else some f

/-- Result of the parsing scan: the four lists built by `parse_inp`. -/
structure Raw where
  elsets : List (List Char)
  surf_names : List (List Char)
  surfaces : List (List (List Char))
  embeds : List (List (List Char))
deriving DecidableEq

/-- Componentwise list concatenation of two scan results. -/
def Raw.app (a b : Raw) : Raw :=
  ⟨a.elsets ++ b.elsets, a.surf_names ++ b.surf_names,
   a.surfaces ++ b.surfaces, a.embeds ++ b.embeds⟩

/-- Data lines are consumed `while j < n and not lines[j].lstrip().startswith('*')`. -/
def notStar (l : List Char) : Bool := !lstripStartsStar l

/-- Structural form of the scan of `parse_inp` (lines 29–64 of the source),
recursing on the list of lines not yet visited by the cursor.  Contributions
are consed at the front; the cursor version below appends at the back and is
proved equal to this one. -/
def parseStruct : List (List Char) → Raw
  | [] => ⟨[], [], [], []⟩
  | l :: rest =>
    match classify l with
    | .elset =>
      let r := parseStruct rest
      match elsetSearch (pyStrip l) with
      | some cap => { r with elsets := pyStrip cap :: r.elsets }
      | none => r
    | .surface =>
      let dataLs := rest.takeWhile notStar
      let r := parseStruct (rest.dropWhile notStar)
      { r with surf_names := dataLs.filterMap dataName ++ r.surf_names,
               surfaces := (l :: dataLs) :: r.surfaces }
    | .embedded =>
      let dataLs := rest.takeWhile notStar
      let r := parseStruct (rest.dropWhile notStar)
      { r with embeds := (l :: dataLs) :: r.embeds }
    | .other => parseStruct rest
termination_by l => l.length
decreasing_by
  all_goals simp only [List.length_cons]
  all_goals first
    | exact Nat.lt_succ_of_le (List.dropWhile_suffix _).sublist.length_le
    | omega

/-- Cursor form of the scan of `parse_inp`: `i` walks the line list as in the
source's `while i < n` loop; a surface or embed block moves the cursor past
all consumed data lines (`i = j - 1` followed by `i += 1`).  The fuel
argument makes the definition structurally recursive and hence computable by
the kernel; `lines.length` fuel always suffices (theorem `parseLoopF_eq`). -/
def parseLoopF : Nat → List (List Char) → Nat → Raw → Raw
  | 0, _, _, acc => acc
  | fuel + 1, lines, i, acc =>
    match lines.drop i with
    | [] => acc
    | l :: rest =>
      match classify l with
      | .elset =>
        match elsetSearch (pyStrip l) with
        | some cap =>
          parseLoopF fuel lines (i + 1) { acc with elsets := acc.elsets ++ [pyStrip cap] }
        | none => parseLoopF fuel lines (i + 1) acc
      | .surface =>
        let dataLs := rest.takeWhile notStar
        parseLoopF fuel lines (i + 1 + dataLs.length)
          { acc with surf_names := acc.surf_names ++ dataLs.filterMap dataName,
                     surfaces := acc.surfaces ++ [l :: dataLs] }
      | .embedded =>
        let dataLs := rest.takeWhile notStar
        parseLoopF fuel lines (i + 1 + dataLs.length)
          { acc with embeds := acc.embeds ++ [l :: dataLs] }
      | .other => parseLoopF fuel lines (i + 1) acc

/-- Order-preserving deduplication, `unique` in the source (lines 67–76). -/
def uniqueAux (seen : List (List Char)) : List (List Char) → List (List Char)
  | [] => []
  | x :: xs => if x ∈ seen then uniqueAux seen xs else x :: uniqueAux (x :: seen) xs

/-- Source function `unique`: keep the first occurrence of each element. -/
def unique (seq : List (List Char)) : List (List Char) := uniqueAux [] seq

/-- Source function `parse_inp`: run the scan and return
`unique(elsets), unique(surf_names), surfaces, embeds`. -/
def parse_inp (lines : List (List Char)) : Raw :=
  let r := parseLoopF lines.length lines 0 ⟨[], [], [], []⟩
  ⟨unique r.elsets, unique r.surf_names, r.surfaces, r.embeds⟩

/-- Cursor advance performed by one iteration of the `while i < n` loop:
one for a plain line, one plus the number of consumed data lines for a
surface or embed block. -/
def stepCursor (lines : List (List Char)) (i : Nat) : Nat :=
  match lines.drop i with
  | [] => i + 1
  | l :: rest =>
    match classify l with
    | .surface => i + 1 + (rest.takeWhile notStar).length
    | .embedded => i + 1 + (rest.takeWhile notStar).length
    | _ => i + 1

/-! Output assembly, `main` lines 88–110 of the source. -/

/-- Separator line written after each section and after each block. -/
def sepLine : List Char :=
  "**----------------------------------------------------------------------\n".toList

/-- Newline appended after each name. -/
def nlChar : List Char := "\n".toList

/-- Text written to `element_sets.inc` before the substitution pass:
elset names, separator, surface names, separator, surface blocks and embed
blocks each followed by a separator. -/
def assemble (r : Raw) : List Char :=
  (r.elsets.map (fun n => n ++ nlChar)).flatten ++ sepLine
    ++ (r.surf_names.map (fun n => n ++ nlChar)).flatten ++ sepLine
    ++ (r.surfaces.map (fun b => b.flatten ++ sepLine)).flatten
    ++ (r.embeds.map (fun b => b.flatten ++ sepLine)).flatten

/-! The substitution pass: `re.sub(r'\bS[1-4]\b', replace_surface, text)`
with `mapping = S1→S3, S2→S4, S3→S5, S4→S6`. -/

/-- Word characters for the regex `\b` boundary (ASCII part of `\w`). -/
def isWordChar (c : Char) : Bool := c.isAlphanum || c == '_'

/-- Digit class `[1-4]` of the substitution pattern. -/
def isSubDigit (c : Char) : Bool := c == '1' || c == '2' || c == '3' || c == '4'

/-- Replacement digit: the `mapping` dictionary sends `S1,S2,S3,S4` to
`S3,S4,S5,S6`. -/
def mapDigit (c : Char) : Char :=
  if c == '1' then '3' else if c == '2' then '4'
  else if c == '3' then '5' else if c == '4' then '6' else c

/-- Wordness of the character preceding the scan position (`none` at the
start of the text, where `\b` holds before a word character). -/
def wordB : Option Char → Bool
  | none => false
  | some c => isWordChar c

/-- Wordness of the first character of the remaining text (`\b` holds after
a word character at the end of the text). -/
def headWord : List Char → Bool
  | [] => false
  | c :: _ => isWordChar c

/-- Scan of `re.sub(r'\bS[1-4]\b', ..., text)`: non-overlapping matches are
replaced left to right; `prev` is the original character before the current
position, so boundaries are always judged against the original text and a
replacement is never rescanned. -/
def subAux : Option Char → List Char → List Char
  | _, [] => []
  | prev, c :: cs =>
    if c == 'S' then
      match cs with
      | d :: rest =>
        if isSubDigit d && !wordB prev && !headWord rest then
          'S' :: mapDigit d :: subAux (some d) rest
        else c :: subAux (some c) (d :: rest)
      | [] => [c]
    else c :: subAux (some c) cs

/-- The full substitution pass over a text. -/
def pySub (text : List Char) : List Char := subAux none text

/-- Final content of `element_sets.inc`: the file is written from the four
lists, re-read, substituted, and overwritten; the composition of the two
writes is the substituted assembly. -/
def element_sets_inc (lines : List (List Char)) : List Char :=
  pySub (assemble (parse_inp lines))

/-! Specification-level form of the substitution, for claim C2: the text
splits into maximal runs of word characters separated by non-word
characters; each run equal to one of the standalone tokens `S1..S4` is
replaced by its image under the fixed mapping and nothing else changes. -/

/-- Image of one standalone token under the substitution table. -/
def mapToken (t : List Char) : List Char :=
  if t = "S1".toList then "S3".toList
  else if t = "S2".toList then "S4".toList
  else if t = "S3".toList then "S5".toList
  else if t = "S4".toList then "S6".toList
  else t

/-- Simultaneous whole-word substitution described by the spec: replace each
maximal word-character run through `mapToken`, copy separators unchanged. -/
def specSub : List Char → List Char
  | [] => []
  | c :: cs =>
    if isWordChar c then
      mapToken (c :: cs.takeWhile isWordChar) ++ specSub (cs.dropWhile isWordChar)
    else c :: specSub cs
termination_by l => l.length
decreasing_by
  all_goals simp only [List.length_cons]
  all_goals first
    | exact Nat.lt_succ_of_le (List.dropWhile_suffix _).sublist.length_le
    | omega

/-! Model of `main` (lines 78–134): the run aborts early when the input file
is absent, otherwise writes the substituted output.  The input filename
`0_axi_mesh_xpl.inp` and the output filename `element_sets.inc` are distinct
fixed names in the script directory, so the two files are independent
locations. -/

/-- The files `main` can touch: the input file (as lines) and the output
file (as text), each possibly absent, plus the script directory used in the
printed messages. -/
structure FS where
  scriptDir : List Char
  inputFile : Option (List (List Char))
  outputFile : Option (List Char)
deriving DecidableEq

/-- Message printed when the input file is missing. -/
def errMsg (dir : List Char) : List Char :=
  "Error: 0_axi_mesh_xpl.inp not found in ".toList ++ dir

/-- Message printed on success. -/
def doneMsg (dir : List Char) : List Char :=
  "Done. Wrote processed output to ".toList ++ dir ++ "/element_sets.inc".toList

/-- One run of `main`: check the input file, return early with an error
message if absent, otherwise write the parsed, assembled and substituted
text to the output file and report success. -/
def mainRun (fs : FS) : FS × List Char :=
  match fs.inputFile with
  | none => (fs, errMsg fs.scriptDir)
  | some lines =>
    ({ fs with outputFile := some (element_sets_inc lines) }, doneMsg fs.scriptDir)

/-- The first line of the remaining input, if any, starts with `*` after
`lstrip`. -/
def goodRest : List (List Char) → Bool
  | [] => true
  | l :: _ => lstripStartsStar l

/-- Wordness of the last character of a text. -/
def lastWord (l : List Char) : Bool :=
  match l.getLast? with
  | none => false
  | some c => isWordChar c

/-! Concrete lines used in the testable properties. -/

/-- Surface directive of the spec example. -/
def c1dir : List Char := "*Surface, type=ELEMENT, name=CONTACT\n".toList

/-- Data line of the spec example. -/
def c1data : List Char := "PART-1.1, S1\n".toList

/-- Name contributed by the data line of the spec example. -/
def c1name : List Char := "PART-1.1".toList

/-- The data line of the spec example after the substitution pass. -/
def c1dataSub : List Char := "PART-1.1, S3\n".toList

/-- Elset directive declaring `FOO`. -/
def elsetFooLine : List Char := "*ELSET, ELSET=FOO\n".toList

/-- Elset directive whose attribute value trims to the empty string: the
pattern captures the lone space before the comma. -/
def elsetEmptyLine : List Char := "*ELSET, ELSET= ,foo\n".toList

/-- Second elset directive with an empty-trimming attribute value. -/
def elsetEmptyLine2 : List Char := "*ELSET, ELSET= ,x\n".toList

/-- A line containing `embed` whose first non-whitespace character is not
`*`. -/
def embedBare : List Char := "embed".toList

/-- Another non-directive line containing `embed`. -/
def embedIndented : List Char := "  embedding data\n".toList

/-- An `*Embedded Element` directive line. -/
def embedDirLine : List Char := "*Embedded Element, host=HOST\n".toList

/-- A data line following the embedded directive. -/
def embedDataLine : List Char := "5, 7\n".toList

/-- A `*Surface Section` directive (must be ignored). -/
def surfSectionLine : List Char := "*Surface Section, elset=RIM\n".toList

/-- A data line following the surface-section directive. -/
def surfSectionData : List Char := "1., 2.\n".toList

/-- A `*Surface Interaction` directive (must be ignored). -/
def surfInteractionLine : List Char := "*Surface Interaction, name=FRIC\n".toList

/-- An elset directive line that also contains the substring `embed`. -/
def elsetEmbedLine : List Char := "*ELSET, ELSET=EMBEDSET\n".toList

/-- A surface directive line that also contains the substring `embed`. -/
def surfEmbedLine : List Char := "*Surface, type=ELEMENT, name=embedsurf\n".toList

/-- A directory name used in the file-system witnesses. -/
def dirD : List Char := "d".toList

/-! Properties of `unique`. -/

theorem mem_uniqueAux {x : List Char} :
    ∀ {l seen : List (List Char)}, x ∈ uniqueAux seen l ↔ x ∈ l ∧ x ∉ seen := by
  intro l
  induction l with
  | nil => intro seen; simp [uniqueAux]
  | cons a l ih =>
    intro seen
    by_cases hs : a ∈ seen
    · rw [uniqueAux, if_pos hs, ih]
      by_cases hxa : x = a
      · subst hxa; simp [hs]
      · simp [hxa]
    · rw [uniqueAux, if_neg hs, List.mem_cons, ih]
      by_cases hxa : x = a
      · subst hxa; simp [hs]
      · simp [hxa]

theorem mem_unique {x : List Char} {l : List (List Char)} :
    x ∈ unique l ↔ x ∈ l := by
  rw [unique, mem_uniqueAux]; simp

theorem nodup_uniqueAux :
    ∀ (l seen : List (List Char)), (uniqueAux seen l).Nodup := by
  intro l
  induction l with
  | nil => intro seen; simp [uniqueAux]
  | cons a l ih =>
    intro seen
    by_cases hs : a ∈ seen
    · rw [uniqueAux, if_pos hs]; exact ih seen
    · rw [uniqueAux, if_neg hs]
      refine List.nodup_cons.mpr ⟨?_, ih (a :: seen)⟩
      rw [mem_uniqueAux]
      simp

theorem nodup_unique (l : List (List Char)) : (unique l).Nodup :=
  nodup_uniqueAux l []

theorem count_uniqueAux (x : List Char) :
    ∀ (l seen : List (List Char)),
      (uniqueAux seen l).count x = if x ∈ l ∧ x ∉ seen then 1 else 0 := by
  intro l
  induction l with
  | nil => intro seen; simp [uniqueAux]
  | cons a l ih =>
    intro seen
    by_cases hs : a ∈ seen
    · rw [uniqueAux, if_pos hs, ih]
      by_cases hxa : x = a
      · subst hxa; simp [hs]
      · simp [hxa]
    · rw [uniqueAux, if_neg hs, List.count_cons, ih]
      by_cases hxa : x = a
      · subst hxa; simp [hs]
      · simp [hxa, Ne.symm hxa]

theorem count_unique_of_mem {x : List Char} {l : List (List Char)}
    (h : x ∈ l) : (unique l).count x = 1 := by
  rw [unique, count_uniqueAux]
  simp [h]

/-- A first occurrence keeps its place: deduplicating `p ++ x :: s` with `x`
not occurring in `p` yields `unique p` followed by `x` followed by some
tail. -/
theorem uniqueAux_append_first {x : List Char} :
    ∀ (p : List (List Char)) (seen s : List (List Char)),
      x ∉ p → x ∉ seen →
      ∃ t, uniqueAux seen (p ++ x :: s) = uniqueAux seen p ++ x :: t := by
  intro p
  induction p with
  | nil =>
    intro seen s _ hseen
    refine ⟨uniqueAux (x :: seen) s, ?_⟩
    simp only [List.nil_append, uniqueAux]
    rw [if_neg hseen]
  | cons a p ih =>
    intro seen s hp hseen
    have hxa : x ≠ a := fun h => hp (h ▸ List.mem_cons_self a p)
    have hp' : x ∉ p := fun h => hp (List.mem_cons_of_mem a h)
    by_cases hs : a ∈ seen
    · obtain ⟨t, ht⟩ := ih seen s hp' hseen
      exact ⟨t, by rw [List.cons_append, uniqueAux, if_pos hs, ht, uniqueAux, if_pos hs]⟩
    · have hseen' : x ∉ a :: seen := by
        simp only [List.mem_cons, not_or]; exact ⟨hxa, hseen⟩
      obtain ⟨t, ht⟩ := ih (a :: seen) s hp' hseen'
      refine ⟨t, ?_⟩
      rw [List.cons_append, uniqueAux, if_neg hs, ht, uniqueAux, if_neg hs, List.cons_append]

/-! Equivalence of the cursor scan and the structural scan. -/

theorem Raw.app_empty (a : Raw) : a.app ⟨[], [], [], []⟩ = a := by
  cases a; simp [Raw.app]

theorem parseStruct_nil : parseStruct [] = ⟨[], [], [], []⟩ := by
  simp [parseStruct]

theorem parseStruct_cons_elset {l : List Char} {rest : List (List Char)}
    (h : classify l = .elset) :
    parseStruct (l :: rest) =
      match elsetSearch (pyStrip l) with
      | some cap =>
        { parseStruct rest with elsets := pyStrip cap :: (parseStruct rest).elsets }
      | none => parseStruct rest := by
  rw [parseStruct, h]

theorem parseStruct_cons_surface {l : List Char} {rest : List (List Char)}
    (h : classify l = .surface) :
    parseStruct (l :: rest) =
      { parseStruct (rest.dropWhile notStar) with
        surf_names := (rest.takeWhile notStar).filterMap dataName
          ++ (parseStruct (rest.dropWhile notStar)).surf_names,
        surfaces := (l :: rest.takeWhile notStar)
          :: (parseStruct (rest.dropWhile notStar)).surfaces } := by
  rw [parseStruct, h]

theorem parseStruct_cons_embedded {l : List Char} {rest : List (List Char)}
    (h : classify l = .embedded) :
    parseStruct (l :: rest) =
      { parseStruct (rest.dropWhile notStar) with
        embeds := (l :: rest.takeWhile notStar)
          :: (parseStruct (rest.dropWhile notStar)).embeds } := by
  rw [parseStruct, h]

theorem parseStruct_cons_other {l : List Char} {rest : List (List Char)}
    (h : classify l = .other) :
    parseStruct (l :: rest) = parseStruct rest := by
  rw [parseStruct, h]

theorem parseLoopF_eq :
    ∀ (fuel : Nat) (lines : List (List Char)) (i : Nat) (acc : Raw),
      lines.length - i ≤ fuel →
      parseLoopF fuel lines i acc = acc.app (parseStruct (lines.drop i)) := by
  intro fuel
  induction fuel with
  | zero =>
    intro lines i acc hf
    have hd : lines.drop i = [] := List.drop_eq_nil_iff.mpr (by omega)
    rw [hd, parseStruct_nil, Raw.app_empty, parseLoopF]
  | succ fuel ih =>
    intro lines i acc hf
    cases hd : lines.drop i with
    | nil => rw [parseLoopF, hd, parseStruct_nil, Raw.app_empty]
    | cons l rest =>
      have hlen : i < lines.length := by
        by_contra hle
        rw [List.drop_eq_nil_iff.mpr (by omega)] at hd
        exact List.noConfusion hd
      have hrest : rest = lines.drop (i + 1) := by
        have h1 := List.tail_drop lines i
        rw [hd] at h1
        simpa using h1
      cases hc : classify l with
      | elset =>
        cases hs : elsetSearch (pyStrip l) with
        | some cap =>
          simp only [parseLoopF, hd, hc, hs]
          rw [ih lines (i + 1) _ (by omega), ← hrest, parseStruct_cons_elset hc]
          simp only [hs]
          cases acc
          simp [Raw.app, List.append_assoc]
        | none =>
          simp only [parseLoopF, hd, hc, hs]
          rw [ih lines (i + 1) _ (by omega), ← hrest, parseStruct_cons_elset hc]
          simp only [hs]
      | surface =>
        have hdrop :
            lines.drop (i + 1 + (rest.takeWhile notStar).length) = rest.dropWhile notStar := by
          have h2 := @List.drop_left' _ (rest.takeWhile notStar) (rest.dropWhile notStar) _ rfl
          rw [List.takeWhile_append_dropWhile] at h2
          rw [← List.drop_drop, ← hrest, h2]
        simp only [parseLoopF, hd, hc]
        rw [ih lines _ _ (by omega), hdrop, parseStruct_cons_surface hc]
        cases acc
        simp [Raw.app, List.append_assoc]
      | embedded =>
        have hdrop :
            lines.drop (i + 1 + (rest.takeWhile notStar).length) = rest.dropWhile notStar := by
          have h2 := @List.drop_left' _ (rest.takeWhile notStar) (rest.dropWhile notStar) _ rfl
          rw [List.takeWhile_append_dropWhile] at h2
          rw [← List.drop_drop, ← hrest, h2]
        simp only [parseLoopF, hd, hc]
        rw [ih lines _ _ (by omega), hdrop, parseStruct_cons_embedded hc]
        cases acc
        simp [Raw.app, List.append_assoc]
      | other =>
        simp only [parseLoopF, hd, hc]
        rw [ih lines (i + 1) _ (by omega), ← hrest, parseStruct_cons_other hc]

/-- The source `parse_inp` equals the structural scan followed by the two
deduplications. -/
theorem parse_inp_eq (lines : List (List Char)) :
    parse_inp lines =
      ⟨unique (parseStruct lines).elsets, unique (parseStruct lines).surf_names,
       (parseStruct lines).surfaces, (parseStruct lines).embeds⟩ := by
  rw [parse_inp]
  rw [parseLoopF_eq lines.length lines 0 ⟨[], [], [], []⟩ (by omega)]
  simp [Raw.app]

/-! Reaching a directive: a scan over `pre ++ rest` where the first line of
`rest` is a directive line (starts with `*` after `lstrip`) contributes to
the result exactly the contributions of `pre` followed by those of `rest`,
because no block started inside `pre` can consume a line starting with `*`. -/

theorem Raw.empty_app (a : Raw) : Raw.app ⟨[], [], [], []⟩ a = a := by
  cases a; simp [Raw.app]

theorem goodRest_takeWhile {rest : List (List Char)} (h : goodRest rest = true) :
    rest.takeWhile notStar = [] := by
  cases rest with
  | nil => rfl
  | cons l t =>
    have : notStar l = false := by simp [notStar, goodRest] at h ⊢; exact h
    simp [List.takeWhile_cons, this]

theorem goodRest_dropWhile {rest : List (List Char)} (h : goodRest rest = true) :
    rest.dropWhile notStar = rest := by
  cases rest with
  | nil => rfl
  | cons l t =>
    have : notStar l = false := by simp [notStar, goodRest] at h ⊢; exact h
    simp [List.dropWhile_cons, this]

theorem takeWhile_length_eq_iff {α : Type} {p : α → Bool} {l : List α} :
    (l.takeWhile p).length = l.length ↔ l.dropWhile p = [] := by
  have h := List.takeWhile_append_dropWhile p l
  constructor
  · intro hl
    have := congrArg List.length h
    simp only [List.length_append] at this
    have : (l.dropWhile p).length = 0 := by omega
    exact List.eq_nil_of_length_eq_zero this
  · intro hd
    rw [hd, List.append_nil] at h
    rw [h]

theorem parseStruct_append_aux :
    ∀ (n : Nat) (pre rest : List (List Char)), pre.length ≤ n → goodRest rest = true →
      ∃ r : Raw, parseStruct (pre ++ rest) = r.app (parseStruct rest) := by
  intro n
  induction n with
  | zero =>
    intro pre rest hn _
    have : pre = [] := List.eq_nil_of_length_eq_zero (by omega)
    subst this
    exact ⟨⟨[], [], [], []⟩, by rw [List.nil_append, Raw.empty_app]⟩
  | succ n ih =>
    intro pre rest hn hrest
    cases pre with
    | nil => exact ⟨⟨[], [], [], []⟩, by rw [List.nil_append, Raw.empty_app]⟩
    | cons l pre =>
      rw [List.cons_append]
      have htwr := goodRest_takeWhile hrest
      have hdwr := goodRest_dropWhile hrest
      cases hc : classify l with
      | elset =>
        obtain ⟨r, hr⟩ := ih pre rest (by simpa using Nat.le_of_succ_le_succ hn) hrest
        rw [parseStruct_cons_elset hc]
        cases hs : elsetSearch (pyStrip l) with
        | some cap =>
          refine ⟨{ r with elsets := pyStrip cap :: r.elsets }, ?_⟩
          rw [hr]
          cases r
          simp [Raw.app]
        | none => exact ⟨r, hr⟩
      | surface =>
        rw [parseStruct_cons_surface hc]
        by_cases hE : pre.dropWhile notStar = []
        · have htake : (pre ++ rest).takeWhile notStar = pre := by
            rw [List.takeWhile_append, if_pos (takeWhile_length_eq_iff.mpr hE), htwr,
              List.append_nil]
          have hdrop : (pre ++ rest).dropWhile notStar = rest := by
            rw [List.dropWhile_append, if_pos (by simp [hE]), hdwr]
          refine ⟨⟨[], pre.filterMap dataName, [l :: pre], []⟩, ?_⟩
          rw [htake, hdrop]
          cases hps : parseStruct rest
          simp [Raw.app]
        · have htake : (pre ++ rest).takeWhile notStar = pre.takeWhile notStar := by
            rw [List.takeWhile_append, if_neg (fun h => hE (takeWhile_length_eq_iff.mp h))]
          have hdrop : (pre ++ rest).dropWhile notStar = pre.dropWhile notStar ++ rest := by
            rw [List.dropWhile_append, if_neg (by simp [hE])]
          have hlen : (pre.dropWhile notStar).length ≤ n := by
            have h1 : (pre.dropWhile notStar).length ≤ pre.length :=
              (List.dropWhile_suffix _).sublist.length_le
            simp only [List.length_cons] at hn
            omega
          obtain ⟨r, hr⟩ := ih (pre.dropWhile notStar) rest hlen hrest
          rw [htake, hdrop, hr]
          refine ⟨{ r with
            surf_names := (pre.takeWhile notStar).filterMap dataName ++ r.surf_names,
            surfaces := (l :: pre.takeWhile notStar) :: r.surfaces }, ?_⟩
          cases r
          simp [Raw.app, List.append_assoc]
      | embedded =>
        rw [parseStruct_cons_embedded hc]
        by_cases hE : pre.dropWhile notStar = []
        · have htake : (pre ++ rest).takeWhile notStar = pre := by
            rw [List.takeWhile_append, if_pos (takeWhile_length_eq_iff.mpr hE), htwr,
              List.append_nil]
          have hdrop : (pre ++ rest).dropWhile notStar = rest := by
            rw [List.dropWhile_append, if_pos (by simp [hE]), hdwr]
          refine ⟨⟨[], [], [], [l :: pre]⟩, ?_⟩
          rw [htake, hdrop]
          cases hps : parseStruct rest
          simp [Raw.app]
        · have htake : (pre ++ rest).takeWhile notStar = pre.takeWhile notStar := by
            rw [List.takeWhile_append, if_neg (fun h => hE (takeWhile_length_eq_iff.mp h))]
          have hdrop : (pre ++ rest).dropWhile notStar = pre.dropWhile notStar ++ rest := by
            rw [List.dropWhile_append, if_neg (by simp [hE])]
          have hlen : (pre.dropWhile notStar).length ≤ n := by
            have h1 : (pre.dropWhile notStar).length ≤ pre.length :=
              (List.dropWhile_suffix _).sublist.length_le
            simp only [List.length_cons] at hn
            omega
          obtain ⟨r, hr⟩ := ih (pre.dropWhile notStar) rest hlen hrest
          rw [htake, hdrop, hr]
          refine ⟨{ r with embeds := (l :: pre.takeWhile notStar) :: r.embeds }, ?_⟩
          cases r
          simp [Raw.app, List.append_assoc]
      | other =>
        rw [parseStruct_cons_other hc]
        exact ih pre rest (by simpa using Nat.le_of_succ_le_succ hn) hrest

theorem parseStruct_append (pre rest : List (List Char)) (h : goodRest rest = true) :
    ∃ r : Raw, parseStruct (pre ++ rest) = r.app (parseStruct rest) :=
  parseStruct_append_aux pre.length pre rest (Nat.le_refl _) h

/-! Shape invariants of the scan: surface blocks start with a line classified
`surface`, embed blocks with a line classified `embedded`, and every surface
name comes from the data lines of some surface block. -/

theorem parseStruct_surfaces_classify_aux :
    ∀ (n : Nat) (lines : List (List Char)), lines.length ≤ n →
      ∀ b ∈ (parseStruct lines).surfaces,
        ∃ l ds, b = l :: ds ∧ classify l = LineClass.surface := by
  intro n
  induction n with
  | zero =>
    intro lines hn
    have : lines = [] := List.eq_nil_of_length_eq_zero (by omega)
    subst this
    simp [parseStruct_nil]
  | succ n ih =>
    intro lines hn
    cases lines with
    | nil => simp [parseStruct_nil]
    | cons l rest =>
      simp only [List.length_cons] at hn
      cases hc : classify l with
      | elset =>
        rw [parseStruct_cons_elset hc]
        cases hs : elsetSearch (pyStrip l) with
        | some cap => simpa using ih rest (by omega)
        | none => exact ih rest (by omega)
      | surface =>
        rw [parseStruct_cons_surface hc]
        intro b hb
        simp only [List.mem_cons] at hb
        cases hb with
        | inl hb => exact ⟨l, rest.takeWhile notStar, hb, hc⟩
        | inr hb =>
          exact ih (rest.dropWhile notStar)
            (le_trans (List.dropWhile_suffix _).sublist.length_le (by omega)) b hb
      | embedded =>
        rw [parseStruct_cons_embedded hc]
        exact ih (rest.dropWhile notStar)
          (le_trans (List.dropWhile_suffix _).sublist.length_le (by omega))
      | other =>
        rw [parseStruct_cons_other hc]
        exact ih rest (by omega)

theorem parseStruct_surfaces_classify {lines : List (List Char)} :
    ∀ b ∈ (parseStruct lines).surfaces,
      ∃ l ds, b = l :: ds ∧ classify l = LineClass.surface :=
  parseStruct_surfaces_classify_aux lines.length lines (Nat.le_refl _)

theorem parseStruct_embeds_classify_aux :
    ∀ (n : Nat) (lines : List (List Char)), lines.length ≤ n →
      ∀ b ∈ (parseStruct lines).embeds,
        ∃ l ds, b = l :: ds ∧ classify l = LineClass.embedded := by
  intro n
  induction n with
  | zero =>
    intro lines hn
    have : lines = [] := List.eq_nil_of_length_eq_zero (by omega)
    subst this
    simp [parseStruct_nil]
  | succ n ih =>
    intro lines hn
    cases lines with
    | nil => simp [parseStruct_nil]
    | cons l rest =>
      simp only [List.length_cons] at hn
      cases hc : classify l with
      | elset =>
        rw [parseStruct_cons_elset hc]
        cases hs : elsetSearch (pyStrip l) with
        | some cap => simpa using ih rest (by omega)
        | none => exact ih rest (by omega)
      | surface =>
        rw [parseStruct_cons_surface hc]
        exact ih (rest.dropWhile notStar)
          (le_trans (List.dropWhile_suffix _).sublist.length_le (by omega))
      | embedded =>
        rw [parseStruct_cons_embedded hc]
        intro b hb
        simp only [List.mem_cons] at hb
        cases hb with
        | inl hb => exact ⟨l, rest.takeWhile notStar, hb, hc⟩
        | inr hb =>
          exact ih (rest.dropWhile notStar)
            (le_trans (List.dropWhile_suffix _).sublist.length_le (by omega)) b hb
      | other =>
        rw [parseStruct_cons_other hc]
        exact ih rest (by omega)

theorem parseStruct_embeds_classify {lines : List (List Char)} :
    ∀ b ∈ (parseStruct lines).embeds,
      ∃ l ds, b = l :: ds ∧ classify l = LineClass.embedded :=
  parseStruct_embeds_classify_aux lines.length lines (Nat.le_refl _)

theorem parseStruct_surf_names_eq_aux :
    ∀ (n : Nat) (lines : List (List Char)), lines.length ≤ n →
      (parseStruct lines).surf_names
        = ((parseStruct lines).surfaces.map (fun b => b.tail.filterMap dataName)).flatten := by
  intro n
  induction n with
  | zero =>
    intro lines hn
    have : lines = [] := List.eq_nil_of_length_eq_zero (by omega)
    subst this
    simp [parseStruct_nil]
  | succ n ih =>
    intro lines hn
    cases lines with
    | nil => simp [parseStruct_nil]
    | cons l rest =>
      simp only [List.length_cons] at hn
      cases hc : classify l with
      | elset =>
        rw [parseStruct_cons_elset hc]
        cases hs : elsetSearch (pyStrip l) with
        | some cap => simpa using ih rest (by omega)
        | none => exact ih rest (by omega)
      | surface =>
        rw [parseStruct_cons_surface hc]
        simp only [List.map_cons, List.flatten_cons, List.tail_cons]
        rw [ih (rest.dropWhile notStar)
          (le_trans (List.dropWhile_suffix _).sublist.length_le (by omega))]
      | embedded =>
        rw [parseStruct_cons_embedded hc]
        exact ih (rest.dropWhile notStar)
          (le_trans (List.dropWhile_suffix _).sublist.length_le (by omega))
      | other =>
        rw [parseStruct_cons_other hc]
        exact ih rest (by omega)

theorem parseStruct_surf_names_eq (lines : List (List Char)) :
    (parseStruct lines).surf_names
      = ((parseStruct lines).surfaces.map (fun b => b.tail.filterMap dataName)).flatten :=
  parseStruct_surf_names_eq_aux lines.length lines (Nat.le_refl _)

/-! Equivalence of the left-to-right `re.sub` scan with the simultaneous
whole-word substitution: a match of `\\bS[1-4]\\b` is exactly a maximal run
of word characters equal to one of the four tokens. -/

theorem specSub_nil : specSub [] = [] := by
  rw [specSub]

theorem specSub_cons_word {c : Char} {cs : List Char} (h : isWordChar c = true) :
    specSub (c :: cs) =
      mapToken (c :: cs.takeWhile isWordChar) ++ specSub (cs.dropWhile isWordChar) := by
  rw [specSub, if_pos h]

theorem specSub_cons_notWord {c : Char} {cs : List Char} (h : isWordChar c = false) :
    specSub (c :: cs) = c :: specSub cs := by
  rw [specSub, if_neg (by simp [h])]

theorem isWordChar_S : isWordChar 'S' = true := by decide

theorem isSubDigit_word {d : Char} (h : isSubDigit d = true) : isWordChar d = true := by
  simp only [isSubDigit, Bool.or_eq_true, beq_iff_eq] at h
  rcases h with ((h | h) | h) | h <;> (subst h; decide)

theorem isSubDigit_ne {d : Char} (h : isSubDigit d = false) :
    d ≠ '1' ∧ d ≠ '2' ∧ d ≠ '3' ∧ d ≠ '4' := by
  simp only [isSubDigit, Bool.or_eq_false_iff, beq_eq_false_iff_ne] at h
  exact ⟨h.1.1.1, h.1.1.2, h.1.2, h.2⟩

theorem mapToken_single (c : Char) : mapToken [c] = [c] := by
  rw [mapToken, if_neg (by simp), if_neg (by simp), if_neg (by simp), if_neg (by simp)]

theorem mapToken_ne_S {c : Char} {t : List Char} (hc : ¬c = 'S') :
    mapToken (c :: t) = c :: t := by
  rw [mapToken, if_neg (by simp [hc]), if_neg (by simp [hc]), if_neg (by simp [hc]),
    if_neg (by simp [hc])]

theorem mapToken_three (a b c : Char) (t : List Char) :
    mapToken (a :: b :: c :: t) = a :: b :: c :: t := by
  rw [mapToken, if_neg (by simp), if_neg (by simp), if_neg (by simp), if_neg (by simp)]

theorem mapToken_S_nondigit {d : Char} (hd : isSubDigit d = false) :
    mapToken ['S', d] = ['S', d] := by
  obtain ⟨h1, h2, h3, h4⟩ := isSubDigit_ne hd
  rw [mapToken, if_neg (by simp [h1]), if_neg (by simp [h2]), if_neg (by simp [h3]),
    if_neg (by simp [h4])]

theorem mapToken_S_digit {d : Char} (hd : isSubDigit d = true) :
    mapToken ['S', d] = ['S', mapDigit d] := by
  simp only [isSubDigit, Bool.or_eq_true, beq_iff_eq] at hd
  rcases hd with ((h | h) | h) | h <;> (subst h; decide)

theorem headWord_takeWhile_nil {l : List Char} (h : headWord l = false) :
    l.takeWhile isWordChar = [] := by
  cases l with
  | nil => rfl
  | cons c t =>
    simp only [headWord] at h
    simp [List.takeWhile_cons, h]

theorem headWord_dropWhile_self {l : List Char} (h : headWord l = false) :
    l.dropWhile isWordChar = l := by
  cases l with
  | nil => rfl
  | cons c t =>
    simp only [headWord] at h
    simp [List.dropWhile_cons, h]

theorem takeWhile_ne_nil_of_headWord {l : List Char} (h : headWord l = true) :
    l.takeWhile isWordChar ≠ [] := by
  cases l with
  | nil => simp [headWord] at h
  | cons c t =>
    simp only [headWord] at h
    simp [List.takeWhile_cons, h]

theorem subAux_eq_aux :
    ∀ (n : Nat) (cs : List Char), cs.length ≤ n → ∀ prev : Option Char,
      subAux prev cs =
        if wordB prev = true then
          cs.takeWhile isWordChar ++ specSub (cs.dropWhile isWordChar)
        else specSub cs := by
  intro n
  induction n with
  | zero =>
    intro cs hl prev
    have : cs = [] := List.eq_nil_of_length_eq_zero (by omega)
    subst this
    cases hwp : wordB prev <;> simp [subAux, specSub_nil]
  | succ n ih =>
    intro cs hl prev
    cases cs with
    | nil => cases hwp : wordB prev <;> simp [subAux, specSub_nil]
    | cons c cs =>
      simp only [List.length_cons] at hl
      cases hw : isWordChar c with
      | false =>
        have hcS : (c == 'S') = false := by
          cases hq : c == 'S'
          · rfl
          · have : c = 'S' := by simpa using hq
            rw [this] at hw
            exact absurd hw (by decide)
        have lhs : subAux prev (c :: cs) = c :: subAux (some c) cs := by
          cases cs <;> simp [subAux, hcS]
        rw [lhs, ih cs (by omega) (some c)]
        have hwc : wordB (some c) = false := hw
        rw [hwc]
        simp only [Bool.false_eq_true, if_false]
        cases hwp : wordB prev
        · simp only [Bool.false_eq_true, if_false]
          rw [specSub_cons_notWord hw]
        · simp only [eq_self_iff_true, if_true]
          rw [List.takeWhile_cons_of_neg (by simp [hw]),
            List.dropWhile_cons_of_neg (by simp [hw]), List.nil_append,
            specSub_cons_notWord hw]
      | true =>
        cases hwp : wordB prev with
        | true =>
          have lhs : subAux prev (c :: cs) = c :: subAux (some c) cs := by
            cases hq : c == 'S'
            · cases cs <;> simp [subAux, hq]
            · have hc : c = 'S' := by simpa using hq
              subst hc
              cases cs with
              | nil => simp [subAux]
              | cons d rest => simp [subAux, hwp]
          rw [lhs, ih cs (by omega) (some c)]
          have hwc : wordB (some c) = true := hw
          rw [hwc]
          simp only [eq_self_iff_true, if_true]
          rw [List.takeWhile_cons_of_pos (by simp [hw]),
            List.dropWhile_cons_of_pos (by simp [hw]), List.cons_append]
        | false =>
          simp only [Bool.false_eq_true, if_false]
          rw [specSub_cons_word hw]
          cases hq : c == 'S'
          · have hcS : ¬c = 'S' := by simpa using hq
            have lhs : subAux prev (c :: cs) = c :: subAux (some c) cs := by
              cases cs <;> simp [subAux, hq]
            rw [lhs, ih cs (by omega) (some c)]
            have hwc : wordB (some c) = true := hw
            rw [hwc]
            simp only [eq_self_iff_true, if_true]
            rw [mapToken_ne_S hcS, List.cons_append]
          · have hc : c = 'S' := by simpa using hq
            subst hc
            cases cs with
            | nil =>
              simp only [subAux, List.takeWhile_nil, List.dropWhile_nil, specSub_nil,
                List.append_nil]
              rw [mapToken_single]
              simp
            | cons d rest =>
              cases hd : isSubDigit d with
              | true =>
                have hwd : isWordChar d = true := isSubDigit_word hd
                cases hh : headWord rest with
                | false =>
                  have lhs : subAux prev ('S' :: d :: rest)
                      = 'S' :: mapDigit d :: subAux (some d) rest := by
                    simp [subAux, hd, hwp, hh]
                  rw [lhs, ih rest (by simp only [List.length_cons] at hl; omega) (some d)]
                  have hwdd : wordB (some d) = true := hwd
                  rw [hwdd]
                  simp only [eq_self_iff_true, if_true]
                  rw [headWord_takeWhile_nil hh, headWord_dropWhile_self hh,
                    List.nil_append, List.takeWhile_cons_of_pos (by simp [hwd]),
                    headWord_takeWhile_nil hh, List.dropWhile_cons_of_pos (by simp [hwd]),
                    headWord_dropWhile_self hh, mapToken_S_digit hd]
                  simp
                | true =>
                  have lhs : subAux prev ('S' :: d :: rest)
                      = 'S' :: subAux (some 'S') (d :: rest) := by
                    simp [subAux, hd, hwp, hh]
                  rw [lhs, ih (d :: rest) (by simp only [List.length_cons] at hl ⊢; omega) (some 'S')]
                  have hwS : wordB (some 'S') = true := isWordChar_S
                  rw [hwS]
                  simp only [eq_self_iff_true, if_true]
                  rw [List.takeWhile_cons_of_pos (by simp [hwd]),
                    List.dropWhile_cons_of_pos (by simp [hwd])]
                  obtain ⟨e, t, he⟩ : ∃ e t, rest.takeWhile isWordChar = e :: t := by
                    cases hrt : rest.takeWhile isWordChar with
                    | nil => exact absurd hrt (takeWhile_ne_nil_of_headWord hh)
                    | cons e t => exact ⟨e, t, rfl⟩
                  rw [he, mapToken_three]
                  simp
              | false =>
                have lhs : subAux prev ('S' :: d :: rest)
                    = 'S' :: subAux (some 'S') (d :: rest) := by
                  simp [subAux, hd]
                rw [lhs, ih (d :: rest) (by simp only [List.length_cons] at hl ⊢; omega) (some 'S')]
                have hwS : wordB (some 'S') = true := isWordChar_S
                rw [hwS]
                simp only [eq_self_iff_true, if_true]
                cases hwd : isWordChar d with
                | false =>
                  rw [List.takeWhile_cons_of_neg (by simp [hwd]), mapToken_single]
                  simp
                | true =>
                  rw [List.takeWhile_cons_of_pos (by simp [hwd])]
                  cases hrt : rest.takeWhile isWordChar with
                  | nil =>
                    rw [mapToken_S_nondigit hd]
                    simp
                  | cons e t =>
                    rw [mapToken_three]
                    simp

/-- The `re.sub` scan equals the simultaneous whole-word substitution. -/
theorem pySub_eq_specSub (cs : List Char) : pySub cs = specSub cs := by
  have h := subAux_eq_aux cs.length cs (Nat.le_refl _) none
  simpa [pySub, wordB] using h

/-! Splitting the substitution at a block boundary: when the split point has
a non-word character on at least one side, no match of `\\bS[1-4]\\b` can
cross it and the substitution distributes over the concatenation. -/

theorem lastWord_cons {c : Char} {x : List Char} (h : x ≠ []) :
    lastWord (c :: x) = lastWord x := by
  cases x with
  | nil => exact absurd rfl h
  | cons b t => rfl

theorem lastWord_all {x : List Char} {c : Char} (hc : isWordChar c = true)
    (h : ∀ a ∈ x, isWordChar a = true) : lastWord (c :: x) = true := by
  induction x generalizing c with
  | nil => simpa [lastWord, List.getLast?] using hc
  | cons b t ih =>
    rw [lastWord_cons (by simp)]
    exact ih (h b (List.mem_cons_self b t)) (fun a ha => h a (List.mem_cons_of_mem b ha))

theorem lastWord_dropWhile {x : List Char} {p : Char → Bool}
    (h : x.dropWhile p ≠ []) : lastWord (x.dropWhile p) = lastWord x := by
  obtain ⟨t, ht⟩ := @List.dropWhile_suffix _ x p
  have h2 := List.getLast?_append_of_ne_nil t h
  rw [ht] at h2
  simp only [lastWord]
  rw [h2]

theorem specSub_append_aux :
    ∀ (n : Nat) (x y : List Char), x.length ≤ n →
      (lastWord x = false ∨ headWord y = false) →
      specSub (x ++ y) = specSub x ++ specSub y := by
  intro n
  induction n with
  | zero =>
    intro x y hn _
    have : x = [] := List.eq_nil_of_length_eq_zero (by omega)
    subst this
    rw [List.nil_append, specSub_nil, List.nil_append]
  | succ n ih =>
    intro x y hn hb
    cases x with
    | nil => rw [List.nil_append, specSub_nil, List.nil_append]
    | cons c x =>
      simp only [List.length_cons] at hn
      rw [List.cons_append]
      cases hw : isWordChar c with
      | false =>
        rw [specSub_cons_notWord hw, specSub_cons_notWord hw, List.cons_append]
        cases hx : x with
        | nil => simp [specSub_nil]
        | cons b t =>
          rw [← hx]
          have hb' : lastWord x = false ∨ headWord y = false := by
            cases hb with
            | inl h =>
              rw [lastWord_cons (by rw [hx]; simp)] at h
              exact Or.inl h
            | inr h => exact Or.inr h
          rw [ih x y (by omega) hb']
      | true =>
        rw [specSub_cons_word hw, specSub_cons_word hw]
        by_cases hE : x.dropWhile isWordChar = []
        · have hall : ∀ a ∈ x, isWordChar a = true := List.dropWhile_eq_nil_iff.mp hE
          have hhy : headWord y = false := by
            cases hb with
            | inl h => rw [lastWord_all hw hall] at h; exact Bool.noConfusion h
            | inr h => exact h
          have htx : x.takeWhile isWordChar = x := by
            have h0 := List.takeWhile_append_dropWhile isWordChar x
            rw [hE, List.append_nil] at h0
            exact h0
          rw [List.takeWhile_append, if_pos (by rw [htx]), headWord_takeWhile_nil hhy,
            List.append_nil, List.dropWhile_append, if_pos (by rw [hE]; rfl),
            headWord_dropWhile_self hhy, htx, hE, specSub_nil, List.append_nil]
        · have hxne : x ≠ [] := fun h => hE (by rw [h]; rfl)
          have hb' : lastWord (x.dropWhile isWordChar) = false ∨ headWord y = false := by
            cases hb with
            | inl h =>
              rw [lastWord_cons hxne] at h
              rw [lastWord_dropWhile hE]
              exact Or.inl h
            | inr h => exact Or.inr h
          have hlen : (x.dropWhile isWordChar).length ≤ n := by
            have h1 : (x.dropWhile isWordChar).length ≤ x.length :=
              (List.dropWhile_suffix _).sublist.length_le
            omega
          rw [List.takeWhile_append, if_neg (fun h => hE (takeWhile_length_eq_iff.mp h)),
            List.dropWhile_append, if_neg (by simp [hE]),
            ih (x.dropWhile isWordChar) y hlen hb', List.append_assoc]

theorem lastWord_append {a b : List Char} (hb : b ≠ []) :
    lastWord (a ++ b) = lastWord b := by
  simp only [lastWord]
  rw [List.getLast?_append_of_ne_nil a hb]

/-- The substitution pass distributes over a concatenation whose split point
has a non-word character on at least one side. -/
theorem pySub_append {x y : List Char} (h : lastWord x = false ∨ headWord y = false) :
    pySub (x ++ y) = pySub x ++ pySub y := by
  rw [pySub_eq_specSub, pySub_eq_specSub, pySub_eq_specSub]
  exact specSub_append_aux x.length x y (Nat.le_refl _) h

theorem pySub_append_left {x y : List Char} (h : x = [] ∨ lastWord x = false) :
    pySub (x ++ y) = pySub x ++ pySub y := by
  cases h with
  | inl h =>
    subst h
    rw [List.nil_append]
    rfl
  | inr h => exact pySub_append (Or.inl h)

theorem endsNl_append {a b : List Char}
    (ha : a = [] ∨ lastWord a = false) (hb : b = [] ∨ lastWord b = false) :
    a ++ b = [] ∨ lastWord (a ++ b) = false := by
  by_cases hbe : b = []
  · subst hbe
    rw [List.append_nil]
    exact ha
  · right
    rw [lastWord_append hbe]
    cases hb with
    | inl h => exact absurd h hbe
    | inr h => exact h

theorem endsNl_nl (x : List Char) : x ++ nlChar = [] ∨ lastWord (x ++ nlChar) = false := by
  right
  rw [lastWord_append (by decide)]
  decide

theorem endsNl_sep (x : List Char) : x ++ sepLine = [] ∨ lastWord (x ++ sepLine) = false := by
  right
  rw [lastWord_append (by decide)]
  decide

theorem endsNl_flatten {L : List (List Char)}
    (h : ∀ x ∈ L, x = [] ∨ lastWord x = false) :
    L.flatten = [] ∨ lastWord L.flatten = false := by
  induction L with
  | nil => exact Or.inl rfl
  | cons a t ih =>
    rw [List.flatten_cons]
    exact endsNl_append (h a (List.mem_cons_self a t))
      (ih (fun x hx => h x (List.mem_cons_of_mem a hx)))

theorem endsNl_namesSec (names : List (List Char)) :
    (names.map (fun n => n ++ nlChar)).flatten = []
      ∨ lastWord (names.map (fun n => n ++ nlChar)).flatten = false := by
  refine endsNl_flatten ?_
  intro x hx
  simp only [List.mem_map] at hx
  obtain ⟨n, _, rfl⟩ := hx
  exact endsNl_nl n

theorem endsNl_blocksSec (bs : List (List (List Char))) :
    (bs.map (fun b => b.flatten ++ sepLine)).flatten = []
      ∨ lastWord (bs.map (fun b => b.flatten ++ sepLine)).flatten = false := by
  refine endsNl_flatten ?_
  intro x hx
  simp only [List.mem_map] at hx
  obtain ⟨b, _, rfl⟩ := hx
  exact endsNl_sep b.flatten

/-- The cursor strictly increases on every iteration of the scanning loop. -/
theorem stepCursor_lt (lines : List (List Char)) (i : Nat) : i < stepCursor lines i := by
  rw [stepCursor]
  split
  · omega
  · split <;> omega

theorem classify_elset {l : List Char}
    (h : ("*elset".toList).isPrefixOf (pyLower (pyStrip l)) = true) :
    classify l = LineClass.elset := by
  simp only [classify]
  rw [if_pos h]

theorem classify_surface {l : List Char}
    (h1 : ("*elset".toList).isPrefixOf (pyLower (pyStrip l)) = false)
    (h2 : ("*surface,".toList).isPrefixOf (pyLower (pyStrip l)) = true) :
    classify l = LineClass.surface := by
  simp only [classify]
  rw [if_neg (by rw [h1]; decide), if_pos h2]

theorem classify_embedded_elim {l : List Char} (h : classify l = LineClass.embedded) :
    ("*elset".toList).isPrefixOf (pyLower (pyStrip l)) = false ∧
    ("*surface,".toList).isPrefixOf (pyLower (pyStrip l)) = false ∧
    strContains ("embed".toList) (pyLower (pyStrip l)) = true := by
  simp only [classify] at h
  by_cases h1 : ("*elset".toList).isPrefixOf (pyLower (pyStrip l)) = true
  · rw [if_pos h1] at h
    simp at h
  · rw [if_neg h1] at h
    by_cases h2 : ("*surface,".toList).isPrefixOf (pyLower (pyStrip l)) = true
    · rw [if_pos h2] at h
      simp at h
    · rw [if_neg h2] at h
      by_cases h3 : strContains ("embed".toList) (pyLower (pyStrip l)) = true
      · exact ⟨Bool.eq_false_iff.mpr h1, Bool.eq_false_iff.mpr h2, h3⟩
      · rw [if_neg h3] at h
        simp at h

theorem classify_surface_elim {l : List Char} (h : classify l = LineClass.surface) :
    ("*surface,".toList).isPrefixOf (pyLower (pyStrip l)) = true := by
  simp only [classify] at h
  by_cases h1 : ("*elset".toList).isPrefixOf (pyLower (pyStrip l)) = true
  · rw [if_pos h1] at h
    simp at h
  · rw [if_neg h1] at h
    by_cases h2 : ("*surface,".toList).isPrefixOf (pyLower (pyStrip l)) = true
    · exact h2
    · rw [if_neg h2] at h
      by_cases h3 : strContains ("embed".toList) (pyLower (pyStrip l)) = true
      · rw [if_pos h3] at h
        simp at h
      · rw [if_neg h3] at h
        simp at h

/-! Claim theorems. -/

/-- C2: the final substitution is a single simultaneous whole-word,
case-sensitive pass mapping S1→S3, S2→S4, S3→S5, S4→S6, computed against
the original text with no cascading: for every text, the scanning
substitution of the source equals the simultaneous replacement of each
standalone token by its image, and the text `S1 S2 S3 S4` yields
`S3 S4 S5 S6`. -/
theorem claim_C2 :
    (∀ text : List Char, pySub text = specSub text) ∧
    pySub ("S1 S2 S3 S4".toList) = "S3 S4 S5 S6".toList :=
  ⟨pySub_eq_specSub, by decide⟩

/-- C10: the parsing scan terminates on every finite list of input lines:
the cursor strictly increases on each iteration of the outer loop, and the
cursor loop (with `lines.length` fuel, which theorem `parseLoopF_eq` shows
is always enough) computes the same total function as the structural
recursion `parseStruct`. -/
theorem claim_C10 :
    (∀ (lines : List (List Char)) (i : Nat), i < stepCursor lines i) ∧
    (∀ lines : List (List Char), parse_inp lines =
      ⟨unique (parseStruct lines).elsets, unique (parseStruct lines).surf_names,
       (parseStruct lines).surfaces, (parseStruct lines).embeds⟩) :=
  ⟨stepCursor_lt, parse_inp_eq⟩

/-- C7: when the input file is absent the run returns early with an error
message naming the missing file, performs no write, and leaves a
pre-existing output file unchanged. -/
theorem claim_C7 (fs : FS) (h : fs.inputFile = none) :
    mainRun fs = (fs, errMsg fs.scriptDir) ∧
    (mainRun fs).1.outputFile = fs.outputFile ∧
    ∃ A B, (mainRun fs).2 = A ++ "0_axi_mesh_xpl.inp".toList ++ B := by
  have hm : mainRun fs = (fs, errMsg fs.scriptDir) := by rw [mainRun, h]
  refine ⟨hm, by rw [hm], "Error: ".toList, " not found in ".toList ++ fs.scriptDir, ?_⟩
  rw [hm]
  show errMsg fs.scriptDir = _
  rw [errMsg]
  have hsplit : "Error: 0_axi_mesh_xpl.inp not found in ".toList
      = ("Error: ".toList ++ "0_axi_mesh_xpl.inp".toList) ++ " not found in ".toList := by
    decide
  rw [hsplit]
  simp [List.append_assoc]

/-- Witness for C7 at a concrete file system with no input file and a
pre-existing output file. -/
theorem claim_C7_witness :
    mainRun ⟨dirD, none, some sepLine⟩ = (⟨dirD, none, some sepLine⟩, errMsg dirD) ∧
    (mainRun ⟨dirD, none, some sepLine⟩).1.outputFile = some sepLine ∧
    ∃ A B, (mainRun ⟨dirD, none, some sepLine⟩).2 = A ++ "0_axi_mesh_xpl.inp".toList ++ B :=
  claim_C7 ⟨dirD, none, some sepLine⟩ rfl

/-- C8: the extractor is deterministic and idempotent at the file level:
running on an input file produces the fixed function of its lines at the
output path, the input file is untouched, and a second run on the resulting
file system writes byte-identical output. -/
theorem claim_C8 (fs : FS) (lines : List (List Char)) (h : fs.inputFile = some lines) :
    (mainRun fs).1.outputFile = some (element_sets_inc lines) ∧
    (mainRun fs).1.inputFile = fs.inputFile ∧
    (mainRun ((mainRun fs).1)).1.outputFile = (mainRun fs).1.outputFile := by
  have hm : mainRun fs
      = ({ fs with outputFile := some (element_sets_inc lines) }, doneMsg fs.scriptDir) := by
    rw [mainRun, h]
  have hm2 : mainRun ({ fs with outputFile := some (element_sets_inc lines) })
      = ({ fs with outputFile := some (element_sets_inc lines) }, doneMsg fs.scriptDir) := by
    rw [mainRun]
    simp [h]
  rw [hm, hm2]
  exact ⟨rfl, by simp [h], rfl⟩

/-- Witness for C8 at a concrete file system holding the two-line example
input. -/
theorem claim_C8_witness :
    (mainRun ⟨dirD, some [c1dir, c1data], none⟩).1.outputFile
      = some (element_sets_inc [c1dir, c1data]) ∧
    (mainRun ⟨dirD, some [c1dir, c1data], none⟩).1.inputFile = some [c1dir, c1data] ∧
    (mainRun ((mainRun ⟨dirD, some [c1dir, c1data], none⟩).1)).1.outputFile
      = (mainRun ⟨dirD, some [c1dir, c1data], none⟩).1.outputFile :=
  claim_C8 ⟨dirD, some [c1dir, c1data], none⟩ [c1dir, c1data] rfl

/-- C3 counterexample: the single-line input `embed` opens an embed block
although its first non-whitespace character is `e`, not `*`; the claim that
only directive lines start embed blocks is false of the code. -/
theorem claim_C3_counterexample :
    lstripStartsStar embedBare = false ∧
    (parse_inp [embedBare]).embeds = [[embedBare]] :=
  ⟨by decide, by decide⟩

/-- C3 amended: any scanned line not classified ELSET or SURFACE whose
lowercased stripped text contains `embed` opens an embed block, whether or
not it is a directive line; in particular every directive line classified
`embedded` is captured verbatim with its following data lines. -/
theorem claim_C3_amended (pre ds post : List (List Char)) (l : List Char)
    (hstar : lstripStartsStar l = true)
    (hcl : classify l = LineClass.embedded)
    (hds : ∀ d ∈ ds, notStar d = true)
    (hpost : goodRest post = true) :
    (l :: ds) ∈ (parse_inp (pre ++ l :: (ds ++ post))).embeds ∧
    (parse_inp [embedIndented]).embeds = [[embedIndented]] ∧
    lstripStartsStar embedIndented = false := by
  refine ⟨?_, by decide, by decide⟩
  rw [parse_inp_eq]
  obtain ⟨r, hr⟩ := parseStruct_append pre (l :: (ds ++ post)) (by simpa [goodRest] using hstar)
  show (l :: ds) ∈ (parseStruct (pre ++ l :: (ds ++ post))).embeds
  rw [hr]
  have htake : (ds ++ post).takeWhile notStar = ds := by
    rw [List.takeWhile_append_of_pos hds, goodRest_takeWhile hpost, List.append_nil]
  rw [Raw.app]
  simp only [parseStruct_cons_embedded hcl, htake]
  simp

/-- Witness for C3 amended: the `*Embedded Element` directive with one data
line is captured verbatim as an embed block. -/
theorem claim_C3_amended_witness :
    ([embedDirLine, embedDataLine]
      ∈ (parse_inp ([] ++ embedDirLine :: ([embedDataLine] ++ []))).embeds) ∧
    (parse_inp [embedIndented]).embeds = [[embedIndented]] ∧
    lstripStartsStar embedIndented = false :=
  claim_C3_amended [] [embedDataLine] [] embedDirLine (by decide) (by decide)
    (by decide) (by decide)

/-- C9: classification priority is ELSET, then SURFACE, then EMBED: a line
whose stripped lowercased text starts with `*elset` is classified ELSET even
when it contains `embed`; one starting with `*surface,` (and not `*elset`)
is classified SURFACE; and every embed block in the scan result starts with
a line classified `embedded`, which forces both of those tests to be false
for it. -/
theorem claim_C9 :
    (∀ l : List Char, ("*elset".toList).isPrefixOf (pyLower (pyStrip l)) = true →
      classify l = LineClass.elset) ∧
    (∀ l : List Char, ("*elset".toList).isPrefixOf (pyLower (pyStrip l)) = false →
      ("*surface,".toList).isPrefixOf (pyLower (pyStrip l)) = true →
      classify l = LineClass.surface) ∧
    (∀ (lines : List (List Char)) (b : List (List Char)),
      b ∈ (parse_inp lines).embeds →
      ∃ l ds, b = l :: ds ∧ classify l = LineClass.embedded ∧
        ("*elset".toList).isPrefixOf (pyLower (pyStrip l)) = false ∧
        ("*surface,".toList).isPrefixOf (pyLower (pyStrip l)) = false) := by
  refine ⟨fun l h => classify_elset h, fun l h1 h2 => classify_surface h1 h2, ?_⟩
  intro lines b hb
  rw [parse_inp_eq] at hb
  obtain ⟨l, ds, rfl, hcl⟩ := parseStruct_embeds_classify b hb
  obtain ⟨h1, h2, _⟩ := classify_embedded_elim hcl
  exact ⟨l, ds, rfl, hcl, h1, h2⟩

/-- Witness for C9: an `*ELSET` line containing `embed` is classified ELSET,
a `*Surface,` line containing `embed` is classified SURFACE, and the embed
block of the one-directive input decomposes as required. -/
theorem claim_C9_witness :
    classify elsetEmbedLine = LineClass.elset ∧
    classify surfEmbedLine = LineClass.surface ∧
    ∃ l ds, [embedDirLine] = l :: ds ∧ classify l = LineClass.embedded ∧
      ("*elset".toList).isPrefixOf (pyLower (pyStrip l)) = false ∧
      ("*surface,".toList).isPrefixOf (pyLower (pyStrip l)) = false :=
  ⟨claim_C9.1 elsetEmbedLine (by decide),
   claim_C9.2.1 surfEmbedLine (by decide) (by decide),
   claim_C9.2.2 [embedDirLine] [embedDirLine] (by decide)⟩

/-- C5: only lines whose stripped lowercased text starts with the literal
`*surface,` contribute to the surface lists: every surface block starts with
such a line, the surface-name list is exactly the deduplicated first fields
of the data lines of the surface blocks, and the concrete
`*Surface Section` / `*Surface Interaction` input contributes nothing at
all. -/
theorem claim_C5 :
    (∀ (lines : List (List Char)) (b : List (List Char)),
      b ∈ (parse_inp lines).surfaces →
      ∃ l ds, b = l :: ds ∧
        ("*surface,".toList).isPrefixOf (pyLower (pyStrip l)) = true) ∧
    (∀ lines : List (List Char),
      (parse_inp lines).surf_names
        = unique (((parse_inp lines).surfaces.map
            (fun b => b.tail.filterMap dataName)).flatten)) ∧
    parse_inp [surfSectionLine, surfSectionData, surfInteractionLine] = ⟨[], [], [], []⟩ := by
  refine ⟨?_, ?_, by decide⟩
  · intro lines b hb
    rw [parse_inp_eq] at hb
    obtain ⟨l, ds, rfl, hcl⟩ := parseStruct_surfaces_classify b hb
    exact ⟨l, ds, rfl, classify_surface_elim hcl⟩
  · intro lines
    rw [parse_inp_eq]
    show unique (parseStruct lines).surf_names = _
    rw [parseStruct_surf_names_eq]

/-- Witness for C5: the surface block of the two-line example starts with
the `*Surface,` directive. -/
theorem claim_C5_witness :
    ∃ l ds, [c1dir, c1data] = l :: ds ∧
      ("*surface,".toList).isPrefixOf (pyLower (pyStrip l)) = true :=
  claim_C5.1 [c1dir, c1data] [c1dir, c1data] (by decide)

/-- C4 counterexample: on the directive `*ELSET, ELSET= ,foo` the attribute
pattern matches with a capture of one space, which trims to the empty
string; the empty name is appended anyway and produces a blank line at the
head of the element-set section, refuting the no-empty-entry claim. -/
theorem claim_C4_counterexample :
    (parse_inp [elsetEmptyLine]).elsets = [[]] ∧
    element_sets_inc [elsetEmptyLine] = nlChar ++ sepLine ++ sepLine :=
  ⟨by decide, by decide⟩

/-- C4 amended: for every `*elset` directive the trimmed captured value is
appended whenever the tolerant pattern matches, even when it trims to the
empty string (an empty value contributes a blank entry); duplicates are
collapsed only by the final order-preserving deduplication pass. -/
theorem claim_C4_amended (pre post : List (List Char)) (l cap : List Char)
    (hstar : lstripStartsStar l = true)
    (hcl : classify l = LineClass.elset)
    (hs : elsetSearch (pyStrip l) = some cap) :
    pyStrip cap ∈ (parse_inp (pre ++ l :: post)).elsets ∧
    (∀ lines : List (List Char),
      (parse_inp lines).elsets = unique (parseStruct lines).elsets) ∧
    (parse_inp [elsetEmptyLine2]).elsets = [[]] := by
  refine ⟨?_, fun lines => by rw [parse_inp_eq], by decide⟩
  rw [parse_inp_eq]
  show pyStrip cap ∈ unique (parseStruct (pre ++ l :: post)).elsets
  rw [mem_unique]
  obtain ⟨r, hr⟩ := parseStruct_append pre (l :: post)
    (by simpa [goodRest] using hstar)
  rw [hr]
  rw [Raw.app]
  simp only [parseStruct_cons_elset hcl, hs]
  simp

/-- Witness for C4 amended: the `FOO` directive contributes its trimmed
value. -/
theorem claim_C4_amended_witness :
    pyStrip ("FOO".toList) ∈ (parse_inp ([] ++ elsetFooLine :: [])).elsets ∧
    (∀ lines : List (List Char),
      (parse_inp lines).elsets = unique (parseStruct lines).elsets) ∧
    (parse_inp [elsetEmptyLine2]).elsets = [[]] :=
  claim_C4_amended [] [] elsetFooLine ("FOO".toList) (by decide) (by decide) (by decide)

/-- C6: an input containing `*ELSET, ELSET=FOO` lists `FOO` exactly once in
the element-set output no matter what the surrounding lines declare, and
the deduplication keeps the first occurrence in place: deduplicating
`p ++ x :: s` with `x` not in `p` yields `unique p` followed by `x`. -/
theorem claim_C6 (pre post : List (List Char)) :
    (parse_inp (pre ++ elsetFooLine :: post)).elsets.count ("FOO".toList) = 1 ∧
    (∀ (p s : List (List Char)) (x : List Char),
      x ∉ p → ∃ t, unique (p ++ x :: s) = unique p ++ x :: t) := by
  constructor
  · rw [parse_inp_eq]
    show (unique (parseStruct (pre ++ elsetFooLine :: post)).elsets).count ("FOO".toList) = 1
    refine count_unique_of_mem ?_
    obtain ⟨r, hr⟩ := parseStruct_append pre (elsetFooLine :: post)
      (show lstripStartsStar elsetFooLine = true by decide)
    rw [hr, Raw.app]
    have hs : elsetSearch (pyStrip elsetFooLine) = some ("FOO".toList) := by decide
    have hcl : classify elsetFooLine = LineClass.elset := by decide
    simp only [parseStruct_cons_elset hcl, hs]
    refine List.mem_append.mpr (Or.inr ?_)
    have hv : pyStrip ("FOO".toList) = "FOO".toList := by decide
    rw [hv]
    exact List.mem_cons_self _ _
  · intro p s x hp
    exact uniqueAux_append_first p [] s hp (by simp)

/-- Witness for C6: even with a duplicate `FOO` declaration right after the
first one, `FOO` is counted once, and a concrete first occurrence keeps its
position. -/
theorem claim_C6_witness :
    (parse_inp ([] ++ elsetFooLine :: [elsetFooLine])).elsets.count ("FOO".toList) = 1 ∧
    ∃ t, unique ([c1name] ++ ("FOO".toList) :: []) = unique [c1name] ++ ("FOO".toList) :: t :=
  ⟨(claim_C6 [] [elsetFooLine]).1,
   (claim_C6 [] [elsetFooLine]).2 [c1name] [] ("FOO".toList) (by decide)⟩

/-- C1: in every input containing the `*Surface, type=ELEMENT, name=CONTACT`
directive followed by exactly one data line `PART-1.1, S1` (the next line,
if any, is a directive), `PART-1.1` is in the surface-name list, the block
is kept verbatim among the surface blocks, and the final output text
contains the name line in the surface-name section and the block with `S3`
in place of `S1`. -/
theorem claim_C1 (pre post : List (List Char)) (hpost : goodRest post = true) :
    c1name ∈ (parse_inp (pre ++ c1dir :: c1data :: post)).surf_names ∧
    [c1dir, c1data] ∈ (parse_inp (pre ++ c1dir :: c1data :: post)).surfaces ∧
    pySub (c1dir ++ c1data) = c1dir ++ c1dataSub ∧
    ∃ A B C, element_sets_inc (pre ++ c1dir :: c1data :: post)
      = A ++ (c1name ++ nlChar) ++ B ++ (c1dir ++ c1dataSub) ++ C := by
  have hcl : classify c1dir = LineClass.surface := by decide
  have hnd : notStar c1data = true := by decide
  have htake : (c1data :: post).takeWhile notStar = [c1data] := by
    rw [List.takeWhile_cons_of_pos hnd, goodRest_takeWhile hpost]
  have hdrop : (c1data :: post).dropWhile notStar = post := by
    rw [List.dropWhile_cons_of_pos hnd, goodRest_dropWhile hpost]
  obtain ⟨r, hr⟩ := parseStruct_append pre (c1dir :: c1data :: post)
    (show lstripStartsStar c1dir = true by decide)
  have hR0 : parseStruct (c1dir :: c1data :: post)
      = { parseStruct post with
          surf_names := c1name :: (parseStruct post).surf_names,
          surfaces := [c1dir, c1data] :: (parseStruct post).surfaces } := by
    rw [parseStruct_cons_surface hcl, htake, hdrop]
    have hfm : List.filterMap dataName [c1data] = [c1name] := by decide
    rw [hfm]
    rfl
  have hmemU : c1name ∈ (parse_inp (pre ++ c1dir :: c1data :: post)).surf_names := by
    rw [parse_inp_eq]
    show c1name ∈ unique (parseStruct (pre ++ c1dir :: c1data :: post)).surf_names
    rw [mem_unique, hr, hR0, Raw.app]
    simp
  have hmemSB : [c1dir, c1data] ∈ (parse_inp (pre ++ c1dir :: c1data :: post)).surfaces := by
    rw [parse_inp_eq]
    show [c1dir, c1data] ∈ (parseStruct (pre ++ c1dir :: c1data :: post)).surfaces
    rw [hr, hR0, Raw.app]
    simp
  refine ⟨hmemU, hmemSB, by decide, ?_⟩
  obtain ⟨u1, u2, hU⟩ := List.append_of_mem hmemU
  obtain ⟨b1, b2, hSB⟩ := List.append_of_mem hmemSB
  have hsep : sepLine = [] ∨ lastWord sepLine = false := Or.inr (by decide)
  have hassem : assemble (parse_inp (pre ++ c1dir :: c1data :: post))
      = (((parse_inp (pre ++ c1dir :: c1data :: post)).elsets.map
            (fun n => n ++ nlChar)).flatten ++ sepLine
          ++ (u1.map (fun n => n ++ nlChar)).flatten)
        ++ ((c1name ++ nlChar)
        ++ (((u2.map (fun n => n ++ nlChar)).flatten ++ sepLine
              ++ (b1.map (fun b => b.flatten ++ sepLine)).flatten)
        ++ ((c1dir ++ c1data)
        ++ (sepLine ++ ((b2.map (fun b => b.flatten ++ sepLine)).flatten
              ++ ((parse_inp (pre ++ c1dir :: c1data :: post)).embeds.map
                    (fun b => b.flatten ++ sepLine)).flatten))))) := by
    rw [assemble, hU, hSB]
    simp only [List.map_append, List.map_cons, List.flatten_append, List.flatten_cons,
      List.flatten_nil, List.append_nil]
    simp [List.append_assoc]
  have hX1 := endsNl_append
    (endsNl_append
      (endsNl_namesSec (parse_inp (pre ++ c1dir :: c1data :: post)).elsets) hsep)
    (endsNl_namesSec u1)
  have hX2 := endsNl_append (endsNl_append (endsNl_namesSec u2) hsep) (endsNl_blocksSec b1)
  have hblockNl : c1dir ++ c1data = [] ∨ lastWord (c1dir ++ c1data) = false :=
    Or.inr (by decide)
  have hname : pySub (c1name ++ nlChar) = c1name ++ nlChar := by decide
  have hblock : pySub (c1dir ++ c1data) = c1dir ++ c1dataSub := by decide
  refine ⟨pySub (((parse_inp (pre ++ c1dir :: c1data :: post)).elsets.map
        (fun n => n ++ nlChar)).flatten ++ sepLine
        ++ (u1.map (fun n => n ++ nlChar)).flatten),
      pySub ((u2.map (fun n => n ++ nlChar)).flatten ++ sepLine
        ++ (b1.map (fun b => b.flatten ++ sepLine)).flatten),
      pySub (sepLine ++ ((b2.map (fun b => b.flatten ++ sepLine)).flatten
        ++ ((parse_inp (pre ++ c1dir :: c1data :: post)).embeds.map
              (fun b => b.flatten ++ sepLine)).flatten)), ?_⟩
  rw [element_sets_inc, hassem, pySub_append_left hX1,
    pySub_append_left (endsNl_nl c1name), pySub_append_left hX2,
    pySub_append_left hblockNl, hname, hblock]
  simp [List.append_assoc]

/-- Witness for C1 at the two-line input consisting of exactly the directive
and its data line. -/
theorem claim_C1_witness :
    c1name ∈ (parse_inp ([] ++ c1dir :: c1data :: [])).surf_names ∧
    [c1dir, c1data] ∈ (parse_inp ([] ++ c1dir :: c1data :: [])).surfaces ∧
    pySub (c1dir ++ c1data) = c1dir ++ c1dataSub ∧
    ∃ A B C, element_sets_inc ([] ++ c1dir :: c1data :: [])
      = A ++ (c1name ++ nlChar) ++ B ++ (c1dir ++ c1dataSub) ++ C :=
  claim_C1 [] [] (by decide)

end ExtractElementSets
